import Mathlib

/-!
Verification development for `wasabi/util.py`, a flat module of terminal
presentation helpers: ANSI color formatting, greedy word wrapping, a
line-level diff renderer built on `difflib.SequenceMatcher`, encoding
guards and ANSI capability detection.

Each Python function is shallowly embedded as an executable Lean
definition, translated line by line from the source.  Strings are Lean
`String`s; Python `None` / duck-typed color arguments become an explicit
`ColorVal` sum; environment lookups become an explicit `Env` record;
exceptions become `Option`.
-/

namespace Wasabi

/-- A color argument of `color` / `diff_strings`: Python passes `None`, a
string name, or an int palette index. -/
inductive ColorVal where
  | none
  | str (s : String)
  | int (n : Int)
deriving DecidableEq, Repr

/-- The `COLORS` name → palette-index table (`util.py` lines 27–41); the
`MESSAGES.*` keys are the strings "good", "fail", "warn", "info". -/
def COLORS : List (String × Int) :=
  [("good", 2), ("fail", 1), ("warn", 3), ("info", 4),
   ("red", 1), ("green", 2), ("yellow", 3), ("blue", 4), ("pink", 5),
   ("cyan", 6), ("white", 7), ("grey", 8), ("black", 16)]

/-- `COLORS.get(fg, fg)`: a string key found in the table resolves to its
palette index; anything else passes through unchanged. -/
def resolveColor : ColorVal → ColorVal
  | .str s =>
    match COLORS.lookup s with
    | some n => .int n
    | Option.none => .str s
  | v => v

/-- Python truthiness of a resolved color value: `None` and `0` and `""`
are falsy, everything else truthy. -/
def truthyColor : ColorVal → Bool
  | .none => false
  | .str s => s != ""
  | .int n => n != 0

/-- `"{}".format(v)` on a resolved color value, as interpolated into the
escape sequence (a `None` value is never interpolated: the truthiness
gate filters it out first). -/
def fmtColor : ColorVal → String
  | .none => "None"
  | .str s => s
  | .int n => toString n

/-- `color(text, fg=None, bg=None, bold=False, underline=False)`
(`util.py` lines 68–91): resolves `fg`/`bg` through `COLORS`, returns
`text` unchanged unless one of the resolved `fg`, `bg`, `bold` is truthy,
otherwise wraps `text` in `"\x1b[" + ";".join(styles) + "m" … "\x1b[0m"`
with styles `bold → "1"`, `underline → "4"`, `fg → "38;5;{fg}"`,
`bg → "48;5;{bg}"` in that order. -/
def color (text : String) (fg : ColorVal := .none) (bg : ColorVal := .none)
    (bold : Bool := false) (underline : Bool := false) : String :=
  let fgr := resolveColor fg
  let bgr := resolveColor bg
  if !(truthyColor fgr || truthyColor bgr || bold) then text
  else
    let styles : List String :=
      (if bold then ["1"] else []) ++
      (if underline then ["4"] else []) ++
      (if truthyColor fgr then ["38;5;" ++ fmtColor fgr] else []) ++
      (if truthyColor bgr then ["48;5;" ++ fmtColor bgr] else [])
    "\x1b[" ++ String.intercalate ";" styles ++ "m" ++ text ++ "\x1b[0m"

/-- `a.split("\n")` on the character list: split at every newline, keeping
empty pieces, so the result is always nonempty. -/
def splitNl : List Char → List (List Char)
  | [] => [[]]
  | c :: cs =>
    if c = '\n' then [] :: splitNl cs
    else
      match splitNl cs with
      | [] => [[c]]
      | l :: ls => (c :: l) :: ls

/-- `a.split("\n")` as used by `diff_strings` (`util.py` lines 145–146). -/
def splitLines (s : String) : List String :=
  (splitNl s.data).map List.asString

/-- `"\n".join(output)` (`util.py` line 161): the pieces joined with a
single newline between consecutive pieces. -/
def joinNl : List String → String
  | [] => ""
  | [s] => s
  | s :: rest => s ++ "\n" ++ joinNl rest

theorem splitNl_nonempty (cs : List Char) : splitNl cs ≠ [] := by
  induction cs with
  | nil => simp [splitNl]
  | cons c cs ih =>
    simp only [splitNl]
    split
    · simp
    · cases h : splitNl cs <;> simp

theorem joinNl_data_splitNl (cs : List Char) :
    (joinNl ((splitNl cs).map List.asString)).data = cs := by
  induction cs with
  | nil => simp [splitNl, joinNl, List.asString]
  | cons c cs ih =>
    simp only [splitNl]
    split
    · rename_i hc
      subst hc
      cases h : splitNl cs with
      | nil => exact absurd h (splitNl_nonempty cs)
      | cons l ls =>
        rw [h] at ih
        simp only [List.map_cons, joinNl] at ih ⊢
        simp only [String.data_append] at ih ⊢
        simpa [List.asString] using ih
    · cases h : splitNl cs with
      | nil => exact absurd h (splitNl_nonempty cs)
      | cons l ls =>
        rw [h] at ih
        cases ls with
        | nil =>
          simp only [List.map_cons, List.map_nil, joinNl] at ih ⊢
          simp only [List.asString] at ih ⊢
          simpa using congrArg (c :: ·) ih
        | cons l2 ls2 =>
          simp only [List.map_cons, joinNl] at ih ⊢
          simp only [String.data_append] at ih ⊢
          simp only [List.asString] at ih ⊢
          rw [← ih]
          simp

/-- Splitting on newlines and rejoining with newlines is the identity. -/
theorem joinNl_splitLines (s : String) : joinNl (splitLines s) = s := by
  apply String.ext
  simpa [splitLines] using joinNl_data_splitNl s.data

/-! ### Encoding guard (`locale_escape`, `can_render`)

`util.py` lines 11–12 set `ENCODING = sys.stdout.encoding or "ascii"`.
The detected stream encoding is environment state; the embedding fixes
the source's documented `"ascii"` fallback as the detected encoding. -/

/-- The ASCII codec: a character encodes to its single code-point byte
iff that code point is below 128. -/
def asciiEncodeChar (c : Char) : Option (List Nat) :=
  if c.toNat < 128 then some [c.toNat] else Option.none

/-- The detected output encoding (`ENCODING`, `util.py` line 12),
fixed to the `"ascii"` fallback. -/
def ENCODING : Char → Option (List Nat) := asciiEncodeChar

/-- `string.encode(ENCODING, "replace")`: the `"replace"` error handler
substitutes the byte `0x3F` (`"?"`) for every unencodable character. -/
def encodeReplace (s : String) : List Nat :=
  (s.data.map (fun c => (ENCODING c).getD [63])).flatten

/-- Strict encoding of a character list: stop at the first unencodable
character. -/
def encodeStrictGo : List Char → Option (List Nat)
  | [] => some []
  | c :: cs =>
    match ENCODING c, encodeStrictGo cs with
    | some b, some rest => some (b ++ rest)
    | _, _ => Option.none

/-- `string.encode(ENCODING)` with strict error handling: `none` models a
raised `UnicodeEncodeError` when any character is unencodable. -/
def encodeStrict (s : String) : Option (List Nat) :=
  encodeStrictGo s.data

/-- A UTF-8 continuation byte. -/
def utf8Cont (b : Nat) : Bool := 128 ≤ b && b ≤ 191

/-- Decode one UTF-8-encoded code point from the byte stream, returning
the character and the remaining bytes, or `none` on an invalid leading
byte, truncated or malformed continuation, overlong form, or
surrogate. -/
def utf8Step (b : Nat) (bs : List Nat) : Option (Char × List Nat) :=
  if b < 128 then some (Char.ofNat b, bs)
  else if 194 ≤ b && b ≤ 223 then
    match bs with
    | b2 :: bs2 =>
      if utf8Cont b2 then some (Char.ofNat ((b - 192) * 64 + (b2 - 128)), bs2)
      else Option.none
    | [] => Option.none
  else if 224 ≤ b && b ≤ 239 then
    match bs with
    | b2 :: b3 :: bs3 =>
      if (if b = 224 then 160 ≤ b2 && b2 ≤ 191
          else if b = 237 then 128 ≤ b2 && b2 ≤ 159
          else utf8Cont b2) && utf8Cont b3 then
        some (Char.ofNat ((b - 224) * 4096 + (b2 - 128) * 64 + (b3 - 128)), bs3)
      else Option.none
    | _ => Option.none
  else if 240 ≤ b && b ≤ 244 then
    match bs with
    | b2 :: b3 :: b4 :: bs4 =>
      if (if b = 240 then 144 ≤ b2 && b2 ≤ 191
          else if b = 244 then 128 ≤ b2 && b2 ≤ 143
          else utf8Cont b2) && utf8Cont b3 && utf8Cont b4 then
        some (Char.ofNat
          ((b - 240) * 262144 + (b2 - 128) * 4096 + (b3 - 128) * 64 + (b4 - 128)), bs4)
      else Option.none
    | _ => Option.none
  else Option.none

/-- The decoding loop: each step consumes at least the leading byte, so
`fuel = bs.length` never runs out. -/
def utf8DecodeGo : Nat → List Nat → Option (List Char)
  | _, [] => some []
  | 0, _ :: _ => Option.none
  | fuel + 1, b :: bs =>
    match utf8Step b bs with
    | some (c, rest) => (utf8DecodeGo fuel rest).map (List.cons c)
    | Option.none => Option.none

/-- A strict UTF-8 decoder over byte values, as performed by
`bytes.decode("utf8")`: `none` models a raised `UnicodeDecodeError`. -/
def utf8Decode (bs : List Nat) : Option (List Char) :=
  utf8DecodeGo bs.length bs

/-- `locale_escape(string, errors="replace")` (`util.py` lines 178–187):
encode into `ENCODING` with the `"replace"` policy, then decode the
bytes as UTF-8 (`none` models the decode raising). -/
def locale_escape (s : String) : Option String :=
  (utf8Decode (encodeReplace s)).map List.asString

/-- `can_render(string)` (`util.py` lines 190–201): attempt a strict
encode into `ENCODING`; a raised `UnicodeEncodeError` is caught and
converted to `false`, success yields `true`. -/
def can_render (s : String) : Bool :=
  match encodeStrict s with
  | some _ => true
  | Option.none => false

/-! ### Capability detection (`supports_ansi`) -/

/-- The process environment state consulted by `supports_ansi`:
`environ` models `os.environ` / `os.getenv`, `platform` models
`sys.platform`, and `windowsProbe` models the result of
`_windows_console_supports_ansi()` (a Windows console-mode probe whose
side effects are outside the embedding). -/
structure Env where
  environ : String → Option String
  platform : String
  windowsProbe : Bool

/-- `ENV_ANSI_DISABLED` (`util.py` line 17). -/
def ENV_ANSI_DISABLED : String := "ANSI_COLORS_DISABLED"

/-- Python truthiness of an `os.getenv` result: unset (`None`) and the
empty string are falsy. -/
def truthyEnv : Option String → Bool
  | Option.none => false
  | some s => s != ""

/-- `supports_ansi()` (`util.py` lines 251–266): false when the disabling
variable is truthy; on `win32`, true when `"ANSICON"` is present in the
environment, otherwise the console probe; true on all other platforms. -/
def supports_ansi (e : Env) : Bool :=
  if truthyEnv (e.environ ENV_ANSI_DISABLED) then false
  else if e.platform = "win32" then
    if (e.environ "ANSICON").isSome then true
    else e.windowsProbe
  else true

/-! ### Text wrapper (`wrap`)

`wrap` (`util.py` lines 94–112) calls `textwrap.fill(text,
width=wrap_max - indent, initial_indent=indent, subsequent_indent=indent,
break_long_words=False, break_on_hyphens=False)`.  The embedding follows
CPython's `textwrap.TextWrapper` specialized to those options: the text
is whitespace-munged (`expandtabs(8)`, then each of the six characters
of `textwrap._whitespace` replaced by a space), split into alternating
word / separator chunks (`break_on_hyphens=False` selects
`wordsep_simple_re`, which CPython builds as
`re.compile(r'(%s+)' % whitespace)` from
`whitespace = r'[%s]' % re.escape(_whitespace)` — the six-character
class `[\t\n\x0b\x0c\r ]`, deliberately *not* the Unicode-aware `\s`,
so a non-breaking space is not a break point), and greedily packed into
lines; `drop_whitespace=True` drops a droppable chunk — one whose
Unicode-aware `chunk.strip()` is empty, which covers chunks of
characters such as U+00A0 or U+3000 that survive both munging and the
splitter — at the start of every line but the first and at the end of
every line; `break_long_words=False` places an over-long chunk alone on
its line. -/

/-- The six characters of `textwrap._whitespace`
(`"\t\n\x0b\x0c\r "`): the translation table of
`_munge_whitespace` and, `re.escape`d, the character class of the
chunk-splitting regex `wordsep_simple_re`. -/
def isMungeWhitespace (c : Char) : Bool :=
  c = ' ' || c = '\t' || c = '\n' || c = '\x0b' || c = '\x0c' || c = '\r'

/-- The Unicode whitespace predicate behind `str.strip()` /
`str.isspace()` (CPython's `Py_UNICODE_ISSPACE`): the ASCII controls
`\t\n\x0b\x0c\r`, the separators U+001C–U+001F, the space, NEL (U+0085),
NBSP (U+00A0), Ogham space (U+1680), the U+2000–U+200A spaces, line and
paragraph separators (U+2028, U+2029), narrow NBSP (U+202F), medium
mathematical space (U+205F) and ideographic space (U+3000). -/
def isUniSpace (c : Char) : Bool :=
  let n := c.toNat
  (9 ≤ n && n ≤ 13) || (28 ≤ n && n ≤ 32) || n = 0x85 || n = 0xa0 ||
  n = 0x1680 || (0x2000 ≤ n && n ≤ 0x200a) || n = 0x2028 || n = 0x2029 ||
  n = 0x202f || n = 0x205f || n = 0x3000

/-- `str.expandtabs(8)`: each tab becomes spaces up to the next multiple
of 8; the column resets after a newline or carriage return. -/
def expandTabsGo : List Char → Nat → List Char
  | [], _ => []
  | c :: cs, col =>
    if c = '\t' then
      List.replicate (8 - col % 8) ' ' ++ expandTabsGo cs (col + (8 - col % 8))
    else if c = '\n' || c = '\r' then c :: expandTabsGo cs 0
    else c :: expandTabsGo cs (col + 1)

/-- `TextWrapper._munge_whitespace`: expand tabs, then replace each
character of `_whitespace` (and only those — Unicode whitespace such as
U+00A0 passes through) by a single space. -/
def munge (s : String) : List Char :=
  (expandTabsGo s.data 0).map (fun c => if isMungeWhitespace c then ' ' else c)

/-- Maximal runs of characters agreeing on membership in the
`wordsep_simple_re` class: the chunk list produced by splitting on
`([\t\n\x0b\x0c\r ]+)` while keeping the separators. -/
def spaceRuns : List Char → List (List Char)
  | [] => []
  | c :: cs =>
    match spaceRuns cs with
    | [] => [[c]]
    | r :: rest =>
      match r with
      | [] => [c] :: rest
      | d :: _ =>
        if isMungeWhitespace c = isMungeWhitespace d then (c :: r) :: rest
        else [c] :: r :: rest

/-- `TextWrapper._split` on munged text: alternating word and separator
chunks, in order, no empty chunks. -/
def chunksOf (s : String) : List String :=
  (spaceRuns (munge s)).map List.asString

/-- A droppable chunk: `chunk.strip() == ''` with Python's Unicode-aware
`strip`, so a chunk of separator spaces and also a "word" chunk made
entirely of non-ASCII whitespace such as U+00A0. -/
def isSpaceChunk (c : String) : Bool :=
  c.data.all isUniSpace

/-- The inner greedy loop of `_wrap_chunks`: take chunks while the
running length stays within the width budget. -/
def takeChunks (w : Int) : Int → List String → List String × List String
  | _, [] => ([], [])
  | curLen, c :: cs =>
    if curLen + c.length ≤ w then
      let tr := takeChunks w (curLen + c.length) cs
      (c :: tr.1, tr.2)
    else ([], c :: cs)

/-- Drop a trailing space chunk from the current line
(`drop_whitespace` handling at the end of `_wrap_chunks`' outer loop). -/
def dropTrailingSpace (l : List String) : List String :=
  match l.getLast? with
  | some c => if isSpaceChunk c then l.dropLast else l
  | Option.none => l

/-- One iteration of the outer loop of `TextWrapper._wrap_chunks` with
`break_long_words=False`: drop a leading space chunk when a line was
already emitted, greedily take chunks within the width budget `w`, place
an over-long chunk alone on an empty line (`_handle_long_word`), and
drop a trailing space chunk; returns the emitted chunk group (possibly
empty) and the remaining chunks. -/
def lineStep (w : Int) (hasLines : Bool) (c : String) (cs : List String) :
    List String × List String :=
  let rest0 := if hasLines && isSpaceChunk c then cs else c :: cs
  let tr := takeChunks w 0 rest0
  let pair : List String × List String :=
    match tr.1, tr.2 with
    | [], d :: ds => if (d.length : Int) > w then ([d], ds) else ([], d :: ds)
    | t, r => (t, r)
  (dropTrailingSpace pair.1, pair.2)

/-- The outer loop of `TextWrapper._wrap_chunks`: run `lineStep` per
line with width budget `width - indentLen` and emit the nonempty
groups.  `fuel` bounds the recursion; every iteration consumes at least
one chunk, so `fuel = chunks.length` suffices. -/
def wrapGroupsGo (width : Int) (indentLen : Nat) :
    Nat → Bool → List String → List (List String)
  | 0, _, _ => []
  | _ + 1, _, [] => []
  | fuel + 1, hasLines, c :: cs =>
    let p := lineStep (width - (indentLen : Int)) hasLines c cs
    let groups := wrapGroupsGo width indentLen fuel (hasLines || !p.1.isEmpty) p.2
    if p.1.isEmpty then groups else p.1 :: groups

/-- The chunk groups of `textwrap.wrap(text, width, ...)` for the
options `wrap` passes; each group joined and indented is one output
line. -/
def wrapChunkGroups (width : Int) (indentLen : Nat) (cs : List String) :
    List (List String) :=
  wrapGroupsGo width indentLen cs.length false cs

/-- The indentation string `indent * " "` (`util.py` line 102). -/
def indentStr (n : Nat) : String :=
  List.asString (List.replicate n ' ')

/-- The list of output lines of `textwrap.fill` as called by `wrap`:
each chunk group, joined, prefixed by the indent. -/
def fillLines (wrap_max indent : Nat) (t : String) : List String :=
  (wrapChunkGroups ((wrap_max : Int) - indent) indent (chunksOf t)).map
    (fun g => indentStr indent ++ String.join g)

/-- `wrap(text, wrap_max=80, indent=4)` (`util.py` lines 94–112):
`textwrap.fill` at width `wrap_max - indent` with both indents set to
`indent` spaces; `none` models the `ValueError` that `textwrap` raises
when that width is not positive. -/
def wrap (t : String) (wrap_max : Nat := 80) (indent : Nat := 4) : Option String :=
  if (wrap_max : Int) - indent ≤ 0 then Option.none
  else some (joinNl (fillLines wrap_max indent t))

/-! ### The line matcher (`difflib.SequenceMatcher`)

`diff_strings` (`util.py` lines 145–161) builds
`difflib.SequenceMatcher(None, a, b)` over the two line lists and walks
`get_opcodes()`.  The embedding follows CPython's `difflib` specialized
to `isjunk=None` (so `bjunk` is empty: the two junk-extension loops of
`find_longest_match` never run and are omitted as provable no-ops) and
the default `autojunk=True` (an element of `b` occurring more than
`len(b) // 100 + 1` times is *popular* when `len(b) >= 200` and is
dropped from the `b2j` index, though the non-junk extension loops still
extend across it). -/

/-- The number of occurrences of `x` in `b`. -/
def countOcc (b : List String) (x : String) : Nat :=
  (b.filter (fun y => y == x)).length

/-- Autojunk popularity (`SequenceMatcher.__chain_b`): with
`autojunk=True`, when `len(b) >= 200`, elements occurring more than
`len(b) // 100 + 1` times are dropped from `b2j`. -/
def isPopular (b : List String) (x : String) : Bool :=
  decide (200 ≤ b.length) && decide (b.length / 100 + 1 < countOcc b x)

/-- `b2j[x]`: the ascending positions of `x` in `b`, empty when `x` is
popular or absent. -/
def b2j (b : List String) (x : String) : List Nat :=
  if isPopular b x then []
  else (List.range b.length).filter (fun j => b.getD j "" == x)

/-- The inner loop of `find_longest_match` over `b2j[a[i]]` for one row
`i`: chain lengths come from the previous row's map `old` at `j - 1`
(`j2len.get(j-1, 0) + 1`; at `j = 0` Python reads index `-1`, absent, so
the chain restarts at 1), the new row's map collects them, and the best
match is updated on a strictly greater length, recording start
`(i - k + 1, j - k + 1)` (written `i + 1 - k` over `Nat`; reachable
states keep `k ≤ i + 1` and `k ≤ j + 1`). -/
def flmInner (i : Nat) (old : Nat → Nat) :
    List Nat → (Nat → Nat) → Nat × Nat × Nat → (Nat → Nat) × (Nat × Nat × Nat)
  | [], newm, best => (newm, best)
  | j :: js, newm, best =>
    let k := if j = 0 then 1 else old (j - 1) + 1
    let newm1 : Nat → Nat := fun j1 => if j1 = j then k else newm j1
    let best1 := if best.2.2 < k then (i + 1 - k, j + 1 - k, k) else best
    flmInner i old js newm1 best1

/-- The outer loop of `find_longest_match` over rows `i ∈ [alo, ahi)`;
`j` is restricted to `[blo, bhi)` (Python's `continue` / `break` on the
ascending `b2j` list). -/
def flmRows (a b : List String) (blo bhi : Nat) :
    List Nat → (Nat → Nat) → Nat × Nat × Nat → Nat × Nat × Nat
  | [], _, best => best
  | i :: is, m, best =>
    let js := (b2j b (a.getD i "")).filter
      (fun j => decide (blo ≤ j) && decide (j < bhi))
    let r := flmInner i m js (fun _ => 0) best
    flmRows a b blo bhi is r.1 r.2

/-- The first (non-junk) extension loop of `find_longest_match`: extend
the match backwards over equal elements; `fuel = besti` bounds the at
most `besti - alo` iterations. -/
def extendBack (a b : List String) (alo blo : Nat) :
    Nat → Nat × Nat × Nat → Nat × Nat × Nat
  | 0, best => best
  | fuel + 1, (bi, bj, bs) =>
    if decide (alo < bi) && decide (blo < bj)
        && (a.getD (bi - 1) "" == b.getD (bj - 1) "") then
      extendBack a b alo blo fuel (bi - 1, bj - 1, bs + 1)
    else (bi, bj, bs)

/-- The second (non-junk) extension loop of `find_longest_match`: extend
the match forwards over equal elements; `fuel = ahi` bounds the at most
`ahi - besti - bestsize` iterations. -/
def extendFwd (a b : List String) (ahi bhi : Nat) :
    Nat → Nat × Nat × Nat → Nat × Nat × Nat
  | 0, best => best
  | fuel + 1, (bi, bj, bs) =>
    if decide (bi + bs < ahi) && decide (bj + bs < bhi)
        && (a.getD (bi + bs) "" == b.getD (bj + bs) "") then
      extendFwd a b ahi bhi fuel (bi, bj, bs + 1)
    else (bi, bj, bs)

/-- `SequenceMatcher.find_longest_match(alo, ahi, blo, bhi)` with
`isjunk=None`: the dynamic-programming sweep, then the backward and
forward equal-element extensions (the junk extensions never run). -/
def findLongestMatch (a b : List String) (alo ahi blo bhi : Nat) :
    Nat × Nat × Nat :=
  let best0 := flmRows a b blo bhi (List.range' alo (ahi - alo)) (fun _ => 0) (alo, blo, 0)
  let best1 := extendBack a b alo blo best0.1 best0
  extendFwd a b ahi bhi ahi best1

/-- The recursion of `get_matching_blocks`: find the longest match of the
current range and recurse on the two gaps.  CPython drives this with a
queue and sorts the collected blocks; since the two gap rectangles are
disjoint and ordered, that sorted list equals this in-order traversal.
Every level strictly shrinks `(ahi - alo) + (bhi - blo)`, so
`fuel = len(a) + len(b) + 1` suffices at the top. -/
def matchingBlocksGo (a b : List String) :
    Nat → Nat → Nat → Nat → Nat → List (Nat × Nat × Nat)
  | 0, _, _, _, _ => []
  | fuel + 1, alo, ahi, blo, bhi =>
    let m := findLongestMatch a b alo ahi blo bhi
    if m.2.2 = 0 then []
    else
      matchingBlocksGo a b fuel alo m.1 blo m.2.1 ++ [m] ++
        matchingBlocksGo a b fuel (m.1 + m.2.2) ahi (m.2.1 + m.2.2) bhi

/-- The `non_adjacent` coalescing loop of `get_matching_blocks`: merge
blocks that are adjacent on both sides, starting from the phantom
`(0, 0, 0)`. -/
def coalesce : Nat × Nat × Nat → List (Nat × Nat × Nat) → List (Nat × Nat × Nat)
  | (i1, j1, k1), [] => if k1 ≠ 0 then [(i1, j1, k1)] else []
  | (i1, j1, k1), (i2, j2, k2) :: rest =>
    if i1 + k1 = i2 ∧ j1 + k1 = j2 then coalesce (i1, j1, k1 + k2) rest
    else (if k1 ≠ 0 then [(i1, j1, k1)] else []) ++ coalesce (i2, j2, k2) rest

/-- `SequenceMatcher.get_matching_blocks()`: the recursive block
collection, coalesced, with the `(len(a), len(b), 0)` sentinel. -/
def getMatchingBlocks (a b : List String) : List (Nat × Nat × Nat) :=
  coalesce (0, 0, 0) (matchingBlocksGo a b (a.length + b.length + 1) 0 a.length 0 b.length)
    ++ [(a.length, b.length, 0)]

/-- A diff opcode tag. -/
inductive Tag where
  | equal
  | insert
  | delete
  | replace
deriving DecidableEq, Repr

/-- One entry of `get_opcodes()`: `(tag, i1, i2, j1, j2)`. -/
structure Opcode where
  tag : Tag
  a0 : Nat
  a1 : Nat
  b0 : Nat
  b1 : Nat
deriving DecidableEq, Repr

/-- The loop of `get_opcodes()`: walk the matching blocks, tagging the
gap before each block (`replace` / `delete` / `insert`) and the block
itself (`equal` when nonempty). -/
def opcodesGo : Nat → Nat → List (Nat × Nat × Nat) → List Opcode
  | _, _, [] => []
  | i, j, (ai, bj, size) :: rest =>
    let tagged : List Opcode :=
      if i < ai ∧ j < bj then [⟨.replace, i, ai, j, bj⟩]
      else if i < ai then [⟨.delete, i, ai, j, bj⟩]
      else if j < bj then [⟨.insert, i, ai, j, bj⟩]
      else []
    let eqPart : List Opcode :=
      if size ≠ 0 then [⟨.equal, ai, ai + size, bj, bj + size⟩] else []
    tagged ++ eqPart ++ opcodesGo (ai + size) (bj + size) rest

/-- `SequenceMatcher.get_opcodes()`. -/
def getOpcodes (a b : List String) : List Opcode :=
  opcodesGo 0 0 (getMatchingBlocks a b)

/-- The Python slice `xs[lo:hi]`. -/
def sliceList (xs : List String) (lo hi : Nat) : List String :=
  (xs.drop lo).take (hi - lo)

/-- The body of the rendering loop of `diff_strings` (`util.py` lines
149–160) for one opcode: three sequential `if`s append the equal lines
unstyled, then for `insert` *or* `replace` the lines of `b`'s range
colored on the insert background (prefixed `"+ "` when `add_symbols`),
then for `delete` *or* `replace` the lines of `a`'s range colored on the
delete background (prefixed `"- "`). -/
def renderOpcode (av bv : List String) (fg bgIns bgDel : ColorVal)
    (add_symbols : Bool) (op : Opcode) : List String :=
  (if op.tag = .equal then sliceList av op.a0 op.a1 else []) ++
  (if op.tag = .insert ∨ op.tag = .replace then
    (sliceList bv op.b0 op.b1).map
      (fun item => color (if add_symbols then "+ " ++ item else item) fg bgIns)
  else []) ++
  (if op.tag = .delete ∨ op.tag = .replace then
    (sliceList av op.a0 op.a1).map
      (fun item => color (if add_symbols then "- " ++ item else item) fg bgDel)
  else [])

/-- `diff_strings(a, b, fg="black", bg=("green", "red"),
add_symbols=False)` (`util.py` lines 132–161). -/
def diff_strings (a b : String) (fg : ColorVal := .str "black")
    (bg : ColorVal × ColorVal := (.str "green", .str "red"))
    (add_symbols : Bool := false) : String :=
  let av := splitLines a
  let bv := splitLines b
  joinNl (((getOpcodes av bv).map (renderOpcode av bv fg bg.1 bg.2 add_symbols)).flatten)

/-! ## The color formatter: claims C4, C5, C10 -/

/-- The styles list `color` builds when the truthiness gate passes:
`bold → "1"`, `underline → "4"`, truthy fg → `"38;5;{fg}"`, truthy bg →
`"48;5;{bg}"`, in that order. -/
def stylesOf (fg bg : ColorVal) (bold u : Bool) : List String :=
  (if bold then ["1"] else []) ++
  (if u then ["4"] else []) ++
  (if truthyColor (resolveColor fg) then ["38;5;" ++ fmtColor (resolveColor fg)] else []) ++
  (if truthyColor (resolveColor bg) then ["48;5;" ++ fmtColor (resolveColor bg)] else [])

theorem color_emit (t : String) (fg bg : ColorVal) (bold u : Bool)
    (h : (truthyColor (resolveColor fg) || truthyColor (resolveColor bg) || bold) = true) :
    color t fg bg bold u =
      "\x1b[" ++ String.intercalate ";" (stylesOf fg bg bold u) ++ "m" ++ t ++ "\x1b[0m" := by
  simp [color, h, stylesOf]

theorem esc_wrap_ne (t st : String) : "\x1b[" ++ st ++ "m" ++ t ++ "\x1b[0m" ≠ t := by
  intro heq
  have hl := congrArg String.length heq
  simp only [String.length_append] at hl
  have h1 : ("\x1b[" : String).length = 2 := rfl
  have h2 : ("m" : String).length = 1 := rfl
  have h3 : ("\x1b[0m" : String).length = 4 := rfl
  omega

/-- C4: for every text `t`, `color(t, fg, bg, bold, underline)` returns
`t` completely unchanged whenever none of the resolved `fg`, resolved
`bg`, and `bold` are truthy — including the underline-only case — and
emits the ANSI escape wrapping (hence a changed string) if and only if
at least one of resolved `fg`, `bg`, `bold` is truthy; in particular
`color(t)` with all defaults returns `t`. -/
theorem color_plain_identity (t : String) (fg bg : ColorVal) (bold u : Bool) :
    ((truthyColor (resolveColor fg) || truthyColor (resolveColor bg) || bold) = false →
      color t fg bg bold u = t) ∧
    ((truthyColor (resolveColor fg) || truthyColor (resolveColor bg) || bold) = true →
      color t fg bg bold u ≠ t ∧
      ∃ st : String, color t fg bg bold u = "\x1b[" ++ st ++ "m" ++ t ++ "\x1b[0m") ∧
    color t = t := by
  refine ⟨fun h => by simp [color, h], fun h => ?_, by simp [color, resolveColor, truthyColor]⟩
  have he := color_emit t fg bg bold u h
  exact ⟨he ▸ esc_wrap_ne t _, _, he⟩

/-- Closed witness for `color_plain_identity`: the underline-only call
leaves the text unchanged. -/
theorem color_plain_identity_witness :
    color "abc" (.str "") (.int 0) false true = "abc" :=
  (color_plain_identity "abc" (.str "") (.int 0) false true).1 (by decide)

/-- C5: for every text `t`, `color(t, fg="red", bold=True)` is exactly
`"\x1b[1;38;5;1m"` followed by `t` and terminated by `"\x1b[0m"`:
`"red"` resolves to palette index 1, bold contributes style `"1"` before
the foreground style `"38;5;1"`, and the styles are joined with `";"`. -/
theorem color_red_bold (t : String) :
    color t (.str "red") .none true false = "\x1b[1;38;5;1m" ++ t ++ "\x1b[0m" := rfl

/-- C10: a numeric palette index 0, though a valid 256-color palette
index, is treated exactly like `None`: `color(t, fg=0)` and
`color(t, bg=0)` with `bold=False` and no other color return `t`
unchanged, and `0` behaves identically to no color in every position. -/
theorem color_zero_is_none (t : String) (v : ColorVal) (bold u : Bool) :
    color t (.int 0) .none false false = t ∧
    color t .none (.int 0) false false = t ∧
    color t (.int 0) v bold u = color t .none v bold u ∧
    color t v (.int 0) bold u = color t v .none bold u := by
  refine ⟨by simp [color, resolveColor, truthyColor], by simp [color, resolveColor, truthyColor], ?_, ?_⟩
  · simp [color, resolveColor, truthyColor]
  · simp [color, resolveColor, truthyColor]

/-! ## Capability detection: claim C9 -/

/-- C9: `supports_ansi()` returns false whenever `ANSI_COLORS_DISABLED`
is set to a truthy (non-empty) value, regardless of platform; when the
variable is not set it returns true unconditionally on every
non-Windows platform; and on a non-`win32` platform the result is
independent of the Windows console probe and of the `ANSICON`
variable. -/
theorem supports_ansi_spec (e : Env) :
    (truthyEnv (e.environ ENV_ANSI_DISABLED) = true → supports_ansi e = false) ∧
    (e.environ ENV_ANSI_DISABLED = Option.none → e.platform ≠ "win32" →
      supports_ansi e = true) ∧
    (∀ e2 : Env, e.platform ≠ "win32" → e2.platform = e.platform →
      e2.environ ENV_ANSI_DISABLED = e.environ ENV_ANSI_DISABLED →
      supports_ansi e2 = supports_ansi e) := by
  refine ⟨fun h => by simp [supports_ansi, h], fun h hp => ?_, fun e2 hp h2p h2e => ?_⟩
  · simp [supports_ansi, h, truthyEnv, hp]
  · simp [supports_ansi, h2e, h2p, hp]

/-- Closed witness for `supports_ansi_spec`: with the disabling variable
set to `"1"` the result is false on a Linux platform, and with an empty
environment the result is true. -/
theorem supports_ansi_spec_witness :
    supports_ansi ⟨fun v => if v = "ANSI_COLORS_DISABLED" then some "1" else Option.none,
      "linux", false⟩ = false ∧
    supports_ansi ⟨fun _ => Option.none, "linux", true⟩ = true := by
  constructor
  · exact (supports_ansi_spec _).1 (by decide)
  · exact (supports_ansi_spec ⟨fun _ => Option.none, "linux", true⟩).2.1 rfl (by decide)

/-! ## The encoding guard: claims C8 and C7 -/

theorem encodeStrictGo_isSome (cs : List Char) :
    (encodeStrictGo cs).isSome = cs.all (fun c => (ENCODING c).isSome) := by
  induction cs with
  | nil => rfl
  | cons c cs ih =>
    rw [encodeStrictGo, List.all_cons, ← ih]
    cases h : ENCODING c with
    | none => simp [h]
    | some b =>
      cases hm : encodeStrictGo cs with
      | none => simp [h, hm]
      | some l => simp [h, hm]

/-- C8: `can_render(t)` never throws: it is `true` iff `t` encodes into
the detected output encoding without error (every character encodable),
and an encoding failure is converted into the return value `false`. -/
theorem can_render_spec (s : String) :
    (can_render s = true ↔ encodeStrict s ≠ Option.none) ∧
    (can_render s = true ↔ ∀ c ∈ s.data, (ENCODING c).isSome = true) := by
  constructor
  · unfold can_render
    cases h : encodeStrict s <;> simp [h]
  · have hs : (encodeStrict s).isSome = s.data.all (fun c => (ENCODING c).isSome) :=
      encodeStrictGo_isSome s.data
    unfold can_render
    cases h : encodeStrict s with
    | none =>
      rw [h] at hs
      simp only [Option.isSome_none] at hs
      simp only [reduceCtorEq, false_iff]
      intro hall
      have : s.data.all (fun c => (ENCODING c).isSome) = true := by
        rw [List.all_eq_true]; exact hall
      rw [this] at hs
      exact Bool.false_ne_true hs
    | some l =>
      rw [h] at hs
      simp only [Option.isSome_some] at hs
      have := (List.all_eq_true).mp hs.symm
      simpa using fun c hc => this c hc

/-- Closed witness for `can_render_spec`: `"abc"` renders. -/
theorem can_render_spec_witness : can_render "abc" = true :=
  (can_render_spec "abc").2.mpr (by decide)

theorem utf8DecodeGo_ascii (fuel : Nat) (bs : List Nat) (hf : bs.length ≤ fuel)
    (h : ∀ b ∈ bs, b < 128) : utf8DecodeGo fuel bs = some (bs.map Char.ofNat) := by
  induction fuel generalizing bs with
  | zero =>
    cases bs with
    | nil => rfl
    | cons b bs => simp at hf
  | succ fuel ih =>
    cases bs with
    | nil => rfl
    | cons b bs =>
      have hb : b < 128 := h b (List.mem_cons_self b bs)
      have hstep : utf8Step b bs = some (Char.ofNat b, bs) := by
        unfold utf8Step
        rw [if_pos hb]
      rw [utf8DecodeGo, hstep]
      have ih2 := ih bs (by simpa using hf) (fun x hx => h x (List.mem_cons_of_mem b hx))
      simp only [ih2]
      rfl

theorem utf8Decode_ascii (bs : List Nat) (h : ∀ b ∈ bs, b < 128) :
    utf8Decode bs = some (bs.map Char.ofNat) :=
  utf8DecodeGo_ascii bs.length bs le_rfl h

theorem encodeReplace_list_lt (cs : List Char) :
    ∀ b ∈ (cs.map (fun c => (ENCODING c).getD [63])).flatten, b < 128 := by
  intro b hb
  rw [List.mem_flatten] at hb
  obtain ⟨l, hl, hbl⟩ := hb
  rw [List.mem_map] at hl
  obtain ⟨c, _, hc⟩ := hl
  subst hc
  revert hbl
  unfold ENCODING asciiEncodeChar
  split
  · rename_i hlt
    intro hbl
    simp only [Option.getD_some, List.mem_singleton] at hbl
    omega
  · intro hbl
    simp only [Option.getD_none, List.mem_singleton] at hbl
    omega

theorem encodeReplace_all_lt (t : String) : ∀ b ∈ encodeReplace t, b < 128 :=
  encodeReplace_list_lt t.data

theorem encodeReplace_list_of_ascii (cs : List Char) (h : ∀ c ∈ cs, c.toNat < 128) :
    (cs.map (fun c => (ENCODING c).getD [63])).flatten = cs.map Char.toNat := by
  induction cs with
  | nil => rfl
  | cons c cs ih =>
    have hc : c.toNat < 128 := h c (by simp)
    rw [List.map_cons, List.flatten_cons, ih (fun x hx => h x (by simp [hx]))]
    have he : (ENCODING c).getD [63] = [c.toNat] := by
      simp [ENCODING, asciiEncodeChar, hc]
    rw [he]
    rfl

theorem encodeReplace_of_ascii (u : String) (h : ∀ c ∈ u.data, c.toNat < 128) :
    encodeReplace u = u.data.map Char.toNat :=
  encodeReplace_list_of_ascii u.data h

theorem toNat_ofNat_of_lt (b : Nat) (h : b < 128) : (Char.ofNat b).toNat = b := by
  have hv : b.isValidChar := Or.inl (by omega)
  simp only [Char.ofNat, hv, dite_true, Char.ofNatAux, Char.toNat]
  simp [UInt32.toNat, BitVec.toNat_ofNatLt]

/-- C7: `locale_escape` — encode into the detected output encoding with
the `"replace"` policy, decode the bytes as UTF-8 — always succeeds and
is idempotent: applying it to its own output returns that output
unchanged. -/
theorem locale_escape_idempotent (t : String) :
    ∃ u, locale_escape t = some u ∧ locale_escape u = some u := by
  have hlt := encodeReplace_all_lt t
  have hdec := utf8Decode_ascii (encodeReplace t) hlt
  refine ⟨List.asString ((encodeReplace t).map Char.ofNat), ?_, ?_⟩
  · unfold locale_escape
    rw [hdec]
    rfl
  · set u := List.asString ((encodeReplace t).map Char.ofNat) with hu
    have hudata : u.data = (encodeReplace t).map Char.ofNat := rfl
    have hascii : ∀ c ∈ u.data, c.toNat < 128 := by
      intro c hc
      rw [hudata, List.mem_map] at hc
      obtain ⟨b, hb, hbc⟩ := hc
      rw [← hbc, toNat_ofNat_of_lt b (hlt b hb)]
      exact hlt b hb
    unfold locale_escape
    rw [encodeReplace_of_ascii u hascii]
    rw [utf8Decode_ascii _ (by intro b hb; rw [List.mem_map] at hb; obtain ⟨c, hc, hbc⟩ := hb; rw [← hbc]; exact hascii c hc)]
    have : (u.data.map Char.toNat).map Char.ofNat = u.data := by
      rw [List.map_map]
      have : ∀ c ∈ u.data, Char.ofNat c.toNat = c := fun c _ => Char.ofNat_toNat c
      calc u.data.map (Char.ofNat ∘ Char.toNat) = u.data.map id := List.map_congr_left
            (fun c _ => Char.ofNat_toNat c)
        _ = u.data := List.map_id u.data
    rw [this]
    exact congrArg some (String.ext rfl)

/-! ## The diff renderer: claims C2, C1, C3 -/

/-- C2: `diff_strings` renders a `replace` opcode as insert-then-delete:
the inserted lines from `b`'s range come first (colored `fg` on the
insert background, `"+ "`-prefixed when `add_symbols`), then the deleted
lines from `a`'s range (colored `fg` on the delete background,
`"- "`-prefixed); and concretely, for `a = "x\ny"`, `b = "x\nz"` with
`add_symbols=True`, the output is the unstyled line `"x"`, the colored
`"+ z"` line, then the colored `"- y"` line, joined by newlines. -/
theorem diff_replace_insert_then_delete (av bv : List String)
    (fg bgIns bgDel : ColorVal) (sym : Bool) (a0 a1 b0 b1 : Nat) :
    renderOpcode av bv fg bgIns bgDel sym ⟨.replace, a0, a1, b0, b1⟩ =
      (sliceList bv b0 b1).map
        (fun item => color (if sym then "+ " ++ item else item) fg bgIns) ++
      (sliceList av a0 a1).map
        (fun item => color (if sym then "- " ++ item else item) fg bgDel) ∧
    diff_strings "x\ny" "x\nz" (.str "black") (.str "green", .str "red") true =
      "x\n\x1b[38;5;16;48;5;2m+ z\x1b[0m\n\x1b[38;5;16;48;5;1m- y\x1b[0m" := by
  constructor
  · simp [renderOpcode]
  · rfl

/-! ## The text wrapper: claim C6 -/

/-- A chunk that is a word (not a whitespace run). -/
def isWordChunk (c : String) : Bool := !isSpaceChunk c

theorem takeChunks_append (w : Int) (cs : List String) :
    ∀ cl, (takeChunks w cl cs).1 ++ (takeChunks w cl cs).2 = cs := by
  induction cs with
  | nil => intro cl; rfl
  | cons c cs ih =>
    intro cl
    rw [takeChunks]
    split
    · simpa using ih (cl + c.length)
    · rfl

theorem dropTrailingSpace_filter (l : List String) :
    (dropTrailingSpace l).filter isWordChunk = l.filter isWordChunk := by
  unfold dropTrailingSpace
  cases h : l.getLast? with
  | none => rfl
  | some c =>
    have hred : (match some c with
        | some c => if isSpaceChunk c = true then l.dropLast else l
        | Option.none => l) = if isSpaceChunk c = true then l.dropLast else l := rfl
    rw [hred]
    by_cases hc : isSpaceChunk c
    · rw [if_pos hc]
      conv_rhs => rw [← List.dropLast_append_getLast? c h]
      rw [List.filter_append]
      have : [c].filter isWordChunk = [] := by
        simp [List.filter, isWordChunk, hc]
      rw [this, List.append_nil]
    · rw [if_neg hc]

/-- The pieces of one `lineStep`: the emitted group (pre trailing-space
drop) together with the remaining chunks is the input, up to the
dropped leading space chunk, and the remainder shortens by at least the
head chunk. -/
theorem lineStep_eq (w : Int) (hasLines : Bool) (c : String) (cs : List String) :
    ∃ g r, lineStep w hasLines c cs = (dropTrailingSpace g, r) ∧
      g ++ r = (if hasLines && isSpaceChunk c then cs else c :: cs) ∧
      r.length ≤ cs.length := by
  unfold lineStep
  rcases hdrop : (hasLines && isSpaceChunk c) with _ | _
  all_goals simp only [hdrop, Bool.false_eq_true, if_false, if_true, Bool.true_eq_false]
  · -- no leading drop: rest0 = c :: cs
    rcases htk : takeChunks w 0 (c :: cs) with ⟨tfst, tsnd⟩
    have happ : tfst ++ tsnd = c :: cs := by
      have := takeChunks_append w (c :: cs) 0
      rw [htk] at this
      exact this
    simp only []
    rcases tfst with _ | ⟨t0, ts⟩
    · -- nothing fits: over-long head chunk goes alone
      simp only [List.nil_append] at happ
      subst happ
      have hw : ¬((0 : Int) + (c.length : Int) ≤ w) := by
        intro hle
        rw [takeChunks, if_pos hle] at htk
        simp at htk
      have hgt : ((c.length : Int) > w) := by omega
      refine ⟨[c], cs, ?_, by simp, le_rfl⟩
      simp [hgt]
    · -- at least the head fits
      refine ⟨t0 :: ts, tsnd, rfl, happ, ?_⟩
      have := congrArg List.length happ
      simp only [List.length_append, List.length_cons] at this
      omega
  · -- leading space chunk dropped: rest0 = cs
    rcases htk : takeChunks w 0 cs with ⟨tfst, tsnd⟩
    have happ : tfst ++ tsnd = cs := by
      have := takeChunks_append w cs 0
      rw [htk] at this
      exact this
    have hlen : tsnd.length ≤ cs.length := by
      have := congrArg List.length happ
      simp only [List.length_append] at this
      omega
    simp only []
    rcases tfst with _ | ⟨t0, ts⟩
    · rcases tsnd with _ | ⟨d, ds⟩
      · exact ⟨[], [], rfl, by simpa using happ, by simp⟩
      · simp only [List.nil_append] at happ
        by_cases hgt : ((d.length : Int) > w)
        · refine ⟨[d], ds, by simp [hgt], by simpa using happ, ?_⟩
          have := congrArg List.length happ
          simp only [List.length_cons] at this
          omega
        · exact ⟨[], d :: ds, by simp [hgt], by simpa using happ, happ ▸ hlen⟩
    · exact ⟨t0 :: ts, tsnd, rfl, happ, hlen⟩

theorem lineStep_filter (w : Int) (hasLines : Bool) (c : String) (cs : List String) :
    (lineStep w hasLines c cs).1.filter isWordChunk ++
      (lineStep w hasLines c cs).2.filter isWordChunk =
    (c :: cs).filter isWordChunk := by
  obtain ⟨g, r, heq, happ, _⟩ := lineStep_eq w hasLines c cs
  rw [heq]
  simp only [dropTrailingSpace_filter]
  rw [← List.filter_append, happ]
  split
  · rename_i hdrop
    have hc : isSpaceChunk c = true := ((Bool.and_eq_true _ _).mp hdrop).2
    simp [List.filter_cons, isWordChunk, hc]
  · rfl

theorem lineStep_snd_le (w : Int) (hasLines : Bool) (c : String) (cs : List String) :
    (lineStep w hasLines c cs).2.length ≤ cs.length := by
  obtain ⟨g, r, heq, _, hlen⟩ := lineStep_eq w hasLines c cs
  rw [heq]
  exact hlen

theorem wrapGroupsGo_words (width : Int) (ind : Nat) (fuel : Nat) :
    ∀ (hasLines : Bool) (cs : List String), cs.length ≤ fuel →
    (wrapGroupsGo width ind fuel hasLines cs).flatten.filter isWordChunk =
      cs.filter isWordChunk := by
  induction fuel with
  | zero =>
    intro hasLines cs hlen
    rw [Nat.le_zero, List.length_eq_zero] at hlen
    subst hlen
    rfl
  | succ fuel ih =>
    intro hasLines cs hlen
    cases cs with
    | nil => rfl
    | cons c cs =>
      rw [wrapGroupsGo]
      have hstep := lineStep_filter (width - (ind : Int)) hasLines c cs
      have hle : (lineStep (width - (ind : Int)) hasLines c cs).2.length ≤ fuel := by
        have := lineStep_snd_le (width - (ind : Int)) hasLines c cs
        simp only [List.length_cons] at hlen
        omega
      have ihr := ih (hasLines || !(lineStep (width - (ind : Int)) hasLines c cs).1.isEmpty)
        (lineStep (width - (ind : Int)) hasLines c cs).2 hle
      split
      · rename_i hempty
        simp only [List.isEmpty_iff] at hempty
        rw [hempty] at hstep
        simp only [List.filter_nil, List.nil_append] at hstep
        rw [ihr, hstep]
      · rw [List.flatten_cons, List.filter_append, ihr, hstep]

/-- C6: `wrap(t, wrap_max, indent)` is a greedy word-wrap at usable
width `wrap_max - indent`: every output line is prefixed (including the
first) with `indent` spaces; the text is broken only at whitespace
boundaries — the word chunks of the input reappear, whole and in order,
in the emitted line groups, so no break ever lands inside a word or at
a hyphen; and concretely `wrap("a b c d", wrap_max=10, indent=4)` yields
`"    a\n    b\n    c\n    d"`, lines each at most 10 characters wide,
each starting with four spaces, broken only between words. -/
theorem wrap_greedy_spec (t : String) (wrap_max indent : Nat) :
    (∀ l ∈ fillLines wrap_max indent t, ∃ r, l = indentStr indent ++ r) ∧
    ((wrapChunkGroups ((wrap_max : Int) - indent) indent (chunksOf t)).flatten.filter
        isWordChunk = (chunksOf t).filter isWordChunk) ∧
    wrap "a b c d" 10 4 = some "    a\n    b\n    c\n    d" ∧
    fillLines 10 4 "a b c d" = ["    a", "    b", "    c", "    d"] ∧
    (∀ l ∈ fillLines 10 4 "a b c d", l.length ≤ 10 ∧ ∃ r, l = "    " ++ r) := by
  refine ⟨?_, ?_, by rfl, by rfl, ?_⟩
  · intro l hl
    unfold fillLines at hl
    rw [List.mem_map] at hl
    obtain ⟨g, _, hg⟩ := hl
    exact ⟨String.join g, hg.symm⟩
  · exact wrapGroupsGo_words _ _ _ _ _ le_rfl
  · intro l hl
    have h4 : fillLines 10 4 "a b c d" = ["    a", "    b", "    c", "    d"] := rfl
    rw [h4] at hl
    simp only [List.mem_cons, List.not_mem_nil, or_false] at hl
    rcases hl with h | h | h | h
    · exact h ▸ ⟨by decide, "a", by decide⟩
    · exact h ▸ ⟨by decide, "b", by decide⟩
    · exact h ▸ ⟨by decide, "c", by decide⟩
    · exact h ▸ ⟨by decide, "d", by decide⟩

/-- Closed witness for `wrap_greedy_spec`: the first output line of the
concrete example carries the four-space indent. -/
theorem wrap_greedy_spec_witness : ∃ r, "    a" = indentStr 4 ++ r :=
  (wrap_greedy_spec "a b c d" 10 4).1 "    a" (by decide)

/-! ### Range soundness of the matcher (towards C3) -/

/-- A candidate match lies inside the rectangle
`[alo, ahi] × [blo, bhi]`. -/
def BestOK (alo ahi blo bhi : Nat) (best : Nat × Nat × Nat) : Prop :=
  alo ≤ best.1 ∧ blo ≤ best.2.1 ∧ best.1 + best.2.2 ≤ ahi ∧ best.2.1 + best.2.2 ≤ bhi

/-- Invariant of the chain-length map: entries live in `[blo, bhi)`,
chains ending at `j` have length at most `j + 1 - blo`, and at most
`bound` (the number of processed rows). -/
def MapOK (blo bhi bound : Nat) (m : Nat → Nat) : Prop :=
  ∀ j, m j ≠ 0 → blo ≤ j ∧ j < bhi ∧ m j + blo ≤ j + 1 ∧ m j ≤ bound

theorem flmInner_ok (alo ahi blo bhi i : Nat) (hi1 : alo ≤ i) (hi2 : i < ahi)
    (old : Nat → Nat) (hold : MapOK blo bhi (i - alo) old) :
    ∀ (js : List Nat) (newm : Nat → Nat) (best : Nat × Nat × Nat),
      (∀ j ∈ js, blo ≤ j ∧ j < bhi) →
      MapOK blo bhi (i + 1 - alo) newm → BestOK alo ahi blo bhi best →
      MapOK blo bhi (i + 1 - alo) (flmInner i old js newm best).1 ∧
      BestOK alo ahi blo bhi (flmInner i old js newm best).2 := by
  intro js
  induction js with
  | nil => intro newm best _ hn hb; exact ⟨hn, hb⟩
  | cons j js ih =>
    intro newm best hjs hn hb
    have hj := hjs j (List.mem_cons_self j js)
    rw [flmInner]
    set k := if j = 0 then 1 else old (j - 1) + 1 with hkdef
    have hk : k + blo ≤ j + 1 ∧ k ≤ i + 1 - alo ∧ 1 ≤ k := by
      rw [hkdef]
      split
      · rename_i hj0
        subst hj0
        have : blo = 0 := Nat.le_zero.mp hj.1
        omega
      · rename_i hj0
        by_cases h0 : old (j - 1) = 0
        · rw [h0]
          omega
        · have := hold (j - 1) h0
          omega
    refine ih _ _ (fun x hx => hjs x (List.mem_cons_of_mem j hx)) ?_ ?_
    · intro j1 h1
      simp only [] at h1 ⊢
      by_cases hej : j1 = j
      · subst hej
        rw [if_pos rfl] at h1 ⊢
        exact ⟨hj.1, hj.2, by omega, by omega⟩
      · rw [if_neg hej] at h1 ⊢
        exact hn j1 h1
    · split
      · rename_i hlt
        refine ⟨?_, ?_, ?_, ?_⟩
        · show alo ≤ i + 1 - k
          omega
        · show blo ≤ j + 1 - k
          omega
        · show (i + 1 - k) + k ≤ ahi
          omega
        · show (j + 1 - k) + k ≤ bhi
          omega
      · exact hb

theorem flmRows_ok (a b : List String) (alo ahi blo bhi : Nat) :
    ∀ (n i : Nat), alo ≤ i → i + n = ahi →
    ∀ (m : Nat → Nat) (best : Nat × Nat × Nat),
      MapOK blo bhi (i - alo) m → BestOK alo ahi blo bhi best →
      BestOK alo ahi blo bhi (flmRows a b blo bhi (List.range' i n) m best) := by
  intro n
  induction n with
  | zero => intro i _ _ m best _ hb; exact hb
  | succ n ih =>
    intro i hi1 hi2 m best hm hb
    rw [List.range'_succ, flmRows]
    have hjs : ∀ j ∈ (b2j b (a.getD i "")).filter
        (fun j => decide (blo ≤ j) && decide (j < bhi)), blo ≤ j ∧ j < bhi := by
      intro j hjm
      have := (List.mem_filter.mp hjm).2
      simp at this
      exact this
    have h0 : MapOK blo bhi (i + 1 - alo) (fun _ => (0 : Nat)) := by
      intro j h; simp at h
    have hin := flmInner_ok alo ahi blo bhi i hi1 (by omega) m hm _ (fun _ => 0) best hjs h0 hb
    have hm2 : MapOK blo bhi (i + 1 - alo) (flmInner i m _ (fun _ => 0) best).1 := hin.1
    have : i + 1 - alo = (i + 1) - alo := rfl
    exact ih (i + 1) (by omega) (by omega) _ _ hin.1 hin.2

theorem extendBack_ok (a b : List String) (alo ahi blo bhi : Nat) :
    ∀ (fuel : Nat) (best : Nat × Nat × Nat), BestOK alo ahi blo bhi best →
      BestOK alo ahi blo bhi (extendBack a b alo blo fuel best) := by
  intro fuel
  induction fuel with
  | zero => intro best hb; exact hb
  | succ fuel ih =>
    rintro ⟨bi, bj, bs⟩ hb
    rw [extendBack]
    split
    · rename_i hc
      simp only [Bool.and_eq_true, decide_eq_true_eq] at hc
      refine ih _ ?_
      obtain ⟨⟨h1, h2⟩, _⟩ := hc
      obtain ⟨g1, g2, g3, g4⟩ := hb
      refine ⟨?_, ?_, ?_, ?_⟩ <;> simp only [] at * <;> omega
    · exact hb

theorem extendFwd_ok (a b : List String) (alo ahi blo bhi : Nat) :
    ∀ (fuel : Nat) (best : Nat × Nat × Nat), BestOK alo ahi blo bhi best →
      BestOK alo ahi blo bhi (extendFwd a b ahi bhi fuel best) := by
  intro fuel
  induction fuel with
  | zero => intro best hb; exact hb
  | succ fuel ih =>
    rintro ⟨bi, bj, bs⟩ hb
    rw [extendFwd]
    split
    · rename_i hc
      simp only [Bool.and_eq_true, decide_eq_true_eq] at hc
      refine ih _ ?_
      obtain ⟨⟨h1, h2⟩, _⟩ := hc
      obtain ⟨g1, g2, g3, g4⟩ := hb
      refine ⟨?_, ?_, ?_, ?_⟩ <;> simp only [] at * <;> omega
    · exact hb

/-- `find_longest_match` returns a match inside its rectangle. -/
theorem findLongestMatch_ok (a b : List String) (alo ahi blo bhi : Nat)
    (h1 : alo ≤ ahi) (h2 : blo ≤ bhi) :
    BestOK alo ahi blo bhi (findLongestMatch a b alo ahi blo bhi) := by
  unfold findLongestMatch
  have hb0 : BestOK alo ahi blo bhi (alo, blo, 0) := ⟨le_rfl, le_rfl, by simpa, by simpa⟩
  have hm0 : MapOK blo bhi (alo - alo) (fun _ => (0 : Nat)) := by
    intro j h; simp at h
  have hrows := flmRows_ok a b alo ahi blo bhi (ahi - alo) alo le_rfl (by omega)
    (fun _ => 0) (alo, blo, 0) hm0 hb0
  exact extendFwd_ok a b alo ahi blo bhi ahi _
    (extendBack_ok a b alo ahi blo bhi _ _ hrows)

/-! ### The matching blocks form an ordered chain (towards C3) -/

/-- A list of matching blocks that is ordered and inside the rectangle:
each block starts at or after the lower bounds, ends within the upper
bounds, is nonempty, and the next block starts at or after its end on
both sides. -/
def BlocksChain (alo blo ahi bhi : Nat) : List (Nat × Nat × Nat) → Prop
  | [] => True
  | (x, y, s) :: rest =>
    alo ≤ x ∧ blo ≤ y ∧ x + s ≤ ahi ∧ y + s ≤ bhi ∧ 1 ≤ s ∧
      BlocksChain (x + s) (y + s) ahi bhi rest

theorem BlocksChain_mono (L : List (Nat × Nat × Nat)) :
    ∀ alo blo ahi bhi alo2 blo2 ahi2 bhi2, BlocksChain alo blo ahi bhi L →
      alo2 ≤ alo → blo2 ≤ blo → ahi ≤ ahi2 → bhi ≤ bhi2 →
      BlocksChain alo2 blo2 ahi2 bhi2 L := by
  induction L with
  | nil => intro _ _ _ _ _ _ _ _ _ _ _ _ _; trivial
  | cons blk rest ih =>
    rcases blk with ⟨x, y, s⟩
    intro alo blo ahi bhi alo2 blo2 ahi2 bhi2 h h1 h2 h3 h4
    obtain ⟨g1, g2, g3, g4, g5, g6⟩ := h
    exact ⟨by omega, by omega, by omega, by omega, g5,
      ih (x + s) (y + s) ahi bhi (x + s) (y + s) ahi2 bhi2 g6 le_rfl le_rfl h3 h4⟩

theorem BlocksChain_append (R : List (Nat × Nat × Nat)) (mi mj ms ahi bhi : Nat)
    (hs : 1 ≤ ms) (hR : BlocksChain (mi + ms) (mj + ms) ahi bhi R)
    (hend1 : mi + ms ≤ ahi) (hend2 : mj + ms ≤ bhi) :
    ∀ (L : List (Nat × Nat × Nat)) (alo blo : Nat), alo ≤ mi → blo ≤ mj →
      BlocksChain alo blo mi mj L →
      BlocksChain alo blo ahi bhi (L ++ (mi, mj, ms) :: R) := by
  intro L
  induction L with
  | nil =>
    intro alo blo h1 h2 _
    exact ⟨h1, h2, hend1, hend2, hs, hR⟩
  | cons blk rest ih =>
    rcases blk with ⟨x, y, s⟩
    intro alo blo h1 h2 hL
    obtain ⟨g1, g2, g3, g4, g5, g6⟩ := hL
    exact ⟨g1, g2, by omega, by omega, g5, ih (x + s) (y + s) g3 g4 g6⟩

/-- The blocks collected by the matching-block recursion form an ordered
chain inside the requested rectangle. -/
theorem matchingBlocksGo_chain (a b : List String) :
    ∀ (fuel alo ahi blo bhi : Nat), alo ≤ ahi → blo ≤ bhi →
      BlocksChain alo blo ahi bhi (matchingBlocksGo a b fuel alo ahi blo bhi) := by
  intro fuel
  induction fuel with
  | zero => intro _ _ _ _ _ _; trivial
  | succ fuel ih =>
    intro alo ahi blo bhi h1 h2
    rw [matchingBlocksGo]
    split
    · trivial
    · rename_i hs
      obtain ⟨g1, g2, g3, g4⟩ := findLongestMatch_ok a b alo ahi blo bhi h1 h2
      have hL := ih alo (findLongestMatch a b alo ahi blo bhi).1 blo
        (findLongestMatch a b alo ahi blo bhi).2.1 g1 g2
      have hR := ih ((findLongestMatch a b alo ahi blo bhi).1 +
          (findLongestMatch a b alo ahi blo bhi).2.2) ahi
        ((findLongestMatch a b alo ahi blo bhi).2.1 +
          (findLongestMatch a b alo ahi blo bhi).2.2) bhi g3 g4
      have := BlocksChain_append _ _ _ _ ahi bhi (by omega) hR g3 g4 _ alo blo g1 g2 hL
      simpa using this

theorem coalesce_chain (ahi bhi : Nat) :
    ∀ (L : List (Nat × Nat × Nat)) (i1 j1 k1 : Nat),
      i1 + k1 ≤ ahi → j1 + k1 ≤ bhi →
      BlocksChain (i1 + k1) (j1 + k1) ahi bhi L →
      BlocksChain i1 j1 ahi bhi (coalesce (i1, j1, k1) L) := by
  intro L
  induction L with
  | nil =>
    intro i1 j1 k1 h1 h2 _
    rw [coalesce]
    split
    · rename_i hk
      exact ⟨le_rfl, le_rfl, h1, h2, Nat.one_le_iff_ne_zero.mpr hk, trivial⟩
    · trivial
  | cons blk rest ih =>
    rcases blk with ⟨i2, j2, k2⟩
    intro i1 j1 k1 h1 h2 hL
    obtain ⟨g1, g2, g3, g4, g5, g6⟩ := hL
    rw [coalesce]
    split
    · rename_i hadj
      obtain ⟨e1, e2⟩ := hadj
      refine ih i1 j1 (k1 + k2) (by omega) (by omega) ?_
      have : i1 + (k1 + k2) = i2 + k2 := by omega
      rw [this]
      have : j1 + (k1 + k2) = j2 + k2 := by omega
      rw [this]
      exact g6
    · have hrest : BlocksChain i2 j2 ahi bhi (coalesce (i2, j2, k2) rest) :=
        ih i2 j2 k2 g3 g4 g6
      split
      · rename_i hk
        exact ⟨le_rfl, le_rfl, h1, h2, Nat.one_le_iff_ne_zero.mpr hk,
          BlocksChain_mono _ i2 j2 ahi bhi (i1 + k1) (j1 + k1) ahi bhi hrest g1 g2
            le_rfl le_rfl⟩
      · simpa using BlocksChain_mono _ i2 j2 ahi bhi i1 j1 ahi bhi hrest (by omega)
          (by omega) le_rfl le_rfl

/-- A chain of blocks that ends in exactly the sentinel
`(n, m, 0)`: the shape `get_opcodes` consumes. -/
def SentinelChain (i j n m : Nat) : List (Nat × Nat × Nat) → Prop
  | [] => False
  | [(x, y, s)] => x = n ∧ y = m ∧ s = 0 ∧ i ≤ n ∧ j ≤ m
  | (x, y, s) :: rest => i ≤ x ∧ j ≤ y ∧ x + s ≤ n ∧ y + s ≤ m ∧
      SentinelChain (x + s) (y + s) n m rest

theorem BlocksChain_sentinel (n m : Nat) :
    ∀ (L : List (Nat × Nat × Nat)) (i j : Nat), i ≤ n → j ≤ m →
      BlocksChain i j n m L → SentinelChain i j n m (L ++ [(n, m, 0)]) := by
  intro L
  induction L with
  | nil =>
    intro i j h1 h2 _
    exact ⟨rfl, rfl, rfl, h1, h2⟩
  | cons blk rest ih =>
    rcases blk with ⟨x, y, s⟩
    intro i j h1 h2 hL
    obtain ⟨g1, g2, g3, g4, g5, g6⟩ := hL
    have htail := ih (x + s) (y + s) g3 g4 g6
    cases hre : rest ++ [(n, m, 0)] with
    | nil => exact absurd hre (by simp)
    | cons blk2 rest2 =>
      rw [List.cons_append, hre]
      rw [hre] at htail
      exact ⟨g1, g2, g3, g4, htail⟩

/-! ### `get_opcodes` tiles both sequences exactly (C3) -/

/-- The opcode list partitions `[i, n)` and `[j, m)` exactly: each
opcode's ranges start where the previous ended, are well formed
(`a0 ≤ a1`, `b0 ≤ b1`), and the final opcode ends at `(n, m)`. -/
def OpsTile (i j n m : Nat) : List Opcode → Prop
  | [] => i = n ∧ j = m
  | ⟨_, a0, a1, b0, b1⟩ :: rest => a0 = i ∧ b0 = j ∧ a0 ≤ a1 ∧ b0 ≤ b1 ∧
      OpsTile a1 b1 n m rest

theorem opcodesGo_tile (n m : Nat) :
    ∀ (blocks : List (Nat × Nat × Nat)) (i j : Nat),
      SentinelChain i j n m blocks → OpsTile i j n m (opcodesGo i j blocks) := by
  intro blocks
  induction blocks with
  | nil => intro i j h; exact absurd h (by simp [SentinelChain])
  | cons blk rest ih =>
    rcases blk with ⟨x, y, s⟩
    intro i j h
    cases rest with
    | nil =>
      obtain ⟨e1, e2, e3, e4, e5⟩ := h
      subst e1; subst e2; subst e3
      rw [opcodesGo]
      by_cases hx : i < x
      · by_cases hy : j < y
        · rw [if_pos ⟨hx, hy⟩]
          simp only [if_neg (by omega : ¬(0 : Nat) ≠ 0)]
          exact ⟨rfl, rfl, by omega, by omega, by simp [OpsTile, opcodesGo]⟩
        · rw [if_neg (by tauto), if_pos hx]
          simp only [if_neg (by omega : ¬(0 : Nat) ≠ 0)]
          exact ⟨rfl, rfl, by omega, by omega, by simp [OpsTile, opcodesGo]⟩
      · by_cases hy : j < y
        · rw [if_neg (by tauto), if_neg hx, if_pos hy]
          simp only [if_neg (by omega : ¬(0 : Nat) ≠ 0)]
          exact ⟨rfl, rfl, by omega, by omega, by simp [OpsTile, opcodesGo]⟩
        · rw [if_neg (by tauto), if_neg hx, if_neg hy]
          simp only [if_neg (by omega : ¬(0 : Nat) ≠ 0)]
          simp only [opcodesGo, OpsTile]
          omega
    | cons blk2 rest2 =>
      obtain ⟨e1, e2, e3, e4, e5⟩ := h
      have htail := ih (x + s) (y + s) e5
      rw [opcodesGo]
      by_cases hs : s ≠ 0
      · simp only [if_pos hs]
        by_cases hx : i < x
        · by_cases hy : j < y
          · rw [if_pos ⟨hx, hy⟩]
            exact ⟨rfl, rfl, by omega, by omega, rfl, rfl, by omega, by omega, htail⟩
          · rw [if_neg (by tauto), if_pos hx]
            refine ⟨rfl, rfl, by omega, by omega, ?_⟩
            have hjy : j = y := by omega
            subst hjy
            exact ⟨rfl, rfl, by omega, by omega, htail⟩
        · by_cases hy : j < y
          · rw [if_neg (by tauto), if_neg hx, if_pos hy]
            refine ⟨rfl, rfl, by omega, by omega, ?_⟩
            have hix : i = x := by omega
            subst hix
            exact ⟨rfl, rfl, by omega, by omega, htail⟩
          · rw [if_neg (by tauto), if_neg hx, if_neg hy]
            have hix : i = x := by omega
            have hjy : j = y := by omega
            subst hix; subst hjy
            simpa using ⟨rfl, rfl, by omega, by omega, htail⟩
      · simp only [if_neg hs]
        push_neg at hs
        subst hs
        by_cases hx : i < x
        · by_cases hy : j < y
          · rw [if_pos ⟨hx, hy⟩]
            simpa using ⟨rfl, rfl, by omega, by omega, htail⟩
          · rw [if_neg (by tauto), if_pos hx]
            simpa using ⟨rfl, rfl, by omega, by omega, htail⟩
        · by_cases hy : j < y
          · rw [if_neg (by tauto), if_neg hx, if_pos hy]
            simpa using ⟨rfl, rfl, by omega, by omega, htail⟩
          · rw [if_neg (by tauto), if_neg hx, if_neg hy]
            have hix : i = x := by omega
            have hjy : j = y := by omega
            subst hix; subst hjy
            simpa using htail

/-- C3: for every pair of strings, the opcode sequence computed by the
matcher over the two newline-split line sequences partitions both
sequences exactly: ranges are contiguous and ordered, starting at 0 and
ending at the sequence lengths on both sides, so every line of either
sequence belongs to exactly one opcode range. -/
theorem getOpcodes_partition (a b : String) :
    OpsTile 0 0 (splitLines a).length (splitLines b).length
      (getOpcodes (splitLines a) (splitLines b)) := by
  set av := splitLines a
  set bv := splitLines b
  have hchain : BlocksChain 0 0 av.length bv.length
      (matchingBlocksGo av bv (av.length + bv.length + 1) 0 av.length 0 bv.length) :=
    matchingBlocksGo_chain av bv _ 0 av.length 0 bv.length (Nat.zero_le _) (Nat.zero_le _)
  have hco : BlocksChain 0 0 av.length bv.length
      (coalesce (0, 0, 0) (matchingBlocksGo av bv (av.length + bv.length + 1)
        0 av.length 0 bv.length)) :=
    coalesce_chain av.length bv.length _ 0 0 0 (Nat.zero_le _) (Nat.zero_le _)
      (by simpa using hchain)
  have hsent : SentinelChain 0 0 av.length bv.length (getMatchingBlocks av bv) :=
    BlocksChain_sentinel av.length bv.length _ 0 0 (Nat.zero_le _) (Nat.zero_le _) hco
  exact opcodesGo_tile av.length bv.length _ 0 0 hsent

/-! ### `diff_strings(a, a)` is the identity (C1)

For equal inputs `a = b = xs` the top-level `find_longest_match` call
returns the full-range match `(0, 0, n)`.  The dynamic-programming sweep
keeps its best match on the diagonal — any off-diagonal chain `(i, j)`
is dominated by the diagonal chains through `i` and through `j`, which
are found no later — and the two extension loops then stretch a diagonal
match over the everywhere-equal elements to the full range. -/

/-- Position `j` participates in row `i` of the sweep on `(xs, xs)`:
both indices are in range, the elements are equal, and the shared value
is not autojunk-popular.  This is exactly membership of `j` in the `b2j`
row used at `i`. -/
def diagCond (xs : List String) (i j : Nat) : Prop :=
  i < xs.length ∧ j < xs.length ∧ xs.getD j "" = xs.getD i "" ∧
    isPopular xs (xs.getD i "") = false

instance (xs : List String) (i j : Nat) : Decidable (diagCond xs i j) := by
  unfold diagCond
  infer_instance

/-- The chain length the sweep records at cell `(i, j)` on `(xs, xs)`:
the length of the run of participating equal cells ending at `(i, j)`
along the `(i - j)`-diagonal. -/
def chainD (xs : List String) : Nat → Nat → Nat
  | 0, j => if diagCond xs 0 j then 1 else 0
  | i + 1, 0 => if diagCond xs (i + 1) 0 then 1 else 0
  | i + 1, j' + 1 => if diagCond xs (i + 1) (j' + 1) then chainD xs i j' + 1 else 0

theorem chainD_row0 (xs : List String) (j : Nat) :
    chainD xs 0 j = if diagCond xs 0 j then 1 else 0 := by
  rw [chainD]

theorem chainD_col0 (xs : List String) (i : Nat) :
    chainD xs (i + 1) 0 = if diagCond xs (i + 1) 0 then 1 else 0 := by
  rw [chainD]

theorem chainD_succ (xs : List String) (i j : Nat) :
    chainD xs (i + 1) (j + 1) =
      if diagCond xs (i + 1) (j + 1) then chainD xs i j + 1 else 0 := by
  rw [chainD]

/-- The previous row's chain map as the sweep sees it at row `i`. -/
def prevMap (xs : List String) (i : Nat) : Nat → Nat :=
  fun j => if i = 0 then 0 else chainD xs (i - 1) j

theorem diagCond_self (xs : List String) {i j : Nat} (h : diagCond xs i j) :
    diagCond xs j j ∧ diagCond xs i i := by
  obtain ⟨h1, h2, h3, h4⟩ := h
  refine ⟨⟨h2, h2, rfl, ?_⟩, ⟨h1, h1, rfl, h4⟩⟩
  rw [h3]
  exact h4

theorem chainD_zero (xs : List String) (i j : Nat) (h : ¬diagCond xs i j) :
    chainD xs i j = 0 := by
  cases i with
  | zero => rw [chainD_row0, if_neg h]
  | succ i =>
    cases j with
    | zero => rw [chainD_col0, if_neg h]
    | succ j => rw [chainD_succ, if_neg h]

theorem chainD_pos (xs : List String) (j : Nat) (h : diagCond xs j j) :
    1 ≤ chainD xs j j := by
  cases j with
  | zero => rw [chainD_row0, if_pos h]
  | succ j =>
    rw [chainD_succ, if_pos h]
    omega

/-- Diagonal dominance on `(xs, xs)`: any chain ending at `(i, j)` is at
most as long as the diagonal chains ending at `(j, j)` and `(i, i)`. -/
theorem chainD_le_diag (xs : List String) :
    ∀ i j, chainD xs i j ≤ chainD xs j j ∧ chainD xs i j ≤ chainD xs i i := by
  intro i
  induction i with
  | zero =>
    intro j
    by_cases h : diagCond xs 0 j
    · obtain ⟨hjj, hii⟩ := diagCond_self xs h
      rw [chainD_row0, if_pos h]
      exact ⟨chainD_pos xs j hjj, chainD_pos xs 0 hii⟩
    · rw [chainD_row0, if_neg h]
      simp
  | succ i ih =>
    intro j
    by_cases h : diagCond xs (i + 1) j
    · obtain ⟨hjj, hii⟩ := diagCond_self xs h
      cases j with
      | zero =>
        rw [chainD_col0, if_pos h]
        exact ⟨chainD_pos xs 0 hjj, chainD_pos xs (i + 1) hii⟩
      | succ j' =>
        rw [chainD_succ, if_pos h]
        constructor
        · have h1 := (ih j').1
          have h2 : chainD xs (j' + 1) (j' + 1) = chainD xs j' j' + 1 := by
            rw [chainD_succ, if_pos hjj]
          omega
        · have h1 := (ih j').2
          have h2 : chainD xs (i + 1) (i + 1) = chainD xs i i + 1 := by
            rw [chainD_succ, if_pos hii]
          omega
    · rw [chainD_zero xs _ _ h]
      simp

/-- Membership in the filtered `b2j` row of the sweep at row `i` on
`(xs, xs)` is exactly `diagCond`. -/
theorem mem_jsAt (xs : List String) (i : Nat) (hi : i < xs.length) (j : Nat) :
    (j ∈ (b2j xs (xs.getD i "")).filter
      (fun j => decide (0 ≤ j) && decide (j < xs.length))) ↔ diagCond xs i j := by
  rw [List.mem_filter]
  unfold b2j
  constructor
  · rintro ⟨hj, hrange⟩
    split at hj
    · simp at hj
    · rename_i hpop
      rw [List.mem_filter, List.mem_range] at hj
      refine ⟨hi, hj.1, by simpa using hj.2, by simpa using hpop⟩
  · rintro ⟨h1, h2, h3, h4⟩
    refine ⟨?_, by simpa using h2⟩
    rw [if_neg (by rw [h4]; simp)]
    rw [List.mem_filter, List.mem_range]
    exact ⟨h2, by simpa using h3⟩

/-- The `k` computed by the inner loop equals `chainD` at the cell, when
the previous-row map is correct and the cell participates. -/
theorem k_eq_chainD (xs : List String) (i j : Nat) (old : Nat → Nat)
    (hold : ∀ j', old j' = prevMap xs i j') (h : diagCond xs i j) :
    (if j = 0 then 1 else old (j - 1) + 1) = chainD xs i j := by
  cases j with
  | zero =>
    rw [if_pos rfl]
    cases i with
    | zero => rw [chainD_row0, if_pos h]
    | succ i => rw [chainD_col0, if_pos h]
  | succ j' =>
    rw [if_neg (by omega)]
    have hred : j' + 1 - 1 = j' := rfl
    rw [hred, hold j']
    unfold prevMap
    cases i with
    | zero =>
      rw [if_pos rfl, chainD_row0, if_pos h]
    | succ i =>
      rw [if_neg (by omega), chainD_succ, if_pos h]
      have : i + 1 - 1 = i := rfl
      rw [this]

/-- The inner sweep loop on `(xs, xs)` keeps the best match on the
diagonal: a new chain at `(i, j)` with `j ≠ i` is dominated by a
diagonal chain already reflected in the current best, so only diagonal
updates ever fire.  The new row map records `chainD` at the processed
positions. -/
theorem flmInner_self (xs : List String) (i : Nat)
    (old : Nat → Nat) (hold : ∀ j', old j' = prevMap xs i j') :
    ∀ (rem : List Nat) (newm : Nat → Nat) (best : Nat × Nat × Nat),
      (∀ j ∈ rem, diagCond xs i j) →
      rem.Pairwise (· < ·) →
      best.1 = best.2.1 →
      (∀ i' < i, chainD xs i' i' ≤ best.2.2) →
      (i ∈ rem ∨ chainD xs i i ≤ best.2.2) →
      (∀ j, (flmInner i old rem newm best).1 j =
        if j ∈ rem then chainD xs i j else newm j) ∧
      (flmInner i old rem newm best).2.1 = (flmInner i old rem newm best).2.2.1 ∧
      (∀ i' < i, chainD xs i' i' ≤ (flmInner i old rem newm best).2.2.2) ∧
      chainD xs i i ≤ (flmInner i old rem newm best).2.2.2 := by
  intro rem
  induction rem with
  | nil =>
    intro newm best _ _ hdiag hdom hin
    refine ⟨fun j => by rw [flmInner]; simp, hdiag, hdom, ?_⟩
    rcases hin with h | h
    · exact absurd h (List.not_mem_nil i)
    · exact h
  | cons j rem ih =>
    intro newm best hsub hsort hdiag hdom hin
    have hj : diagCond xs i j := hsub j (List.mem_cons_self j rem)
    have hsort2 := List.pairwise_cons.mp hsort
    have hjnotrem : j ∉ rem := fun hmem => Nat.lt_irrefl j (hsort2.1 j hmem)
    rw [flmInner]
    set k := if j = 0 then 1 else old (j - 1) + 1 with hkdef
    have hk : k = chainD xs i j := hkdef ▸ k_eq_chainD xs i j old hold hj
    have hmain : ∀ (best1 : Nat × Nat × Nat),
        best1.1 = best1.2.1 →
        (∀ i' < i, chainD xs i' i' ≤ best1.2.2) →
        (i ∈ rem ∨ chainD xs i i ≤ best1.2.2) →
        (∀ j0, (flmInner i old rem (fun j1 => if j1 = j then k else newm j1) best1).1 j0 =
          if j0 ∈ j :: rem then chainD xs i j0 else newm j0) ∧
        (flmInner i old rem (fun j1 => if j1 = j then k else newm j1) best1).2.1 =
          (flmInner i old rem (fun j1 => if j1 = j then k else newm j1) best1).2.2.1 ∧
        (∀ i' < i, chainD xs i' i' ≤
          (flmInner i old rem (fun j1 => if j1 = j then k else newm j1) best1).2.2.2) ∧
        chainD xs i i ≤
          (flmInner i old rem (fun j1 => if j1 = j then k else newm j1) best1).2.2.2 := by
      intro best1 h1 h2 h3
      obtain ⟨m1, m2, m3, m4⟩ := ih (fun j1 => if j1 = j then k else newm j1) best1
        (fun x hx => hsub x (List.mem_cons_of_mem j hx)) hsort2.2 h1 h2 h3
      refine ⟨?_, m2, m3, m4⟩
      intro j0
      rw [m1 j0]
      by_cases hj0 : j0 ∈ rem
      · rw [if_pos hj0, if_pos (List.mem_cons_of_mem j hj0)]
      · rw [if_neg hj0]
        by_cases hej : j0 = j
        · subst hej
          rw [if_pos rfl, if_pos (List.mem_cons_self j0 rem), hk]
        · rw [if_neg hej, if_neg (by simp [hej, hj0])]
    rcases Nat.lt_trichotomy j i with hji | hji | hji
    · -- j < i : dominated by the diagonal chain at (j, j), no update
      have hle : k ≤ best.2.2 := by
        rw [hk]
        calc chainD xs i j ≤ chainD xs j j := (chainD_le_diag xs i j).1
          _ ≤ best.2.2 := hdom j hji
      rw [if_neg (by omega)]
      refine hmain best hdiag hdom ?_
      rcases hin with h | h
      · rcases List.mem_cons.mp h with h | h
        · omega
        · exact Or.inl h
      · exact Or.inr h
    · -- j = i : a diagonal update (or no update at all)
      subst hji
      by_cases hbs : best.2.2 < k
      · rw [if_pos hbs]
        refine hmain (j + 1 - k, j + 1 - k, k) rfl ?_ ?_
        · intro i' hi'
          have := hdom i' hi'
          show chainD xs i' i' ≤ k
          omega
        · right
          show chainD xs j j ≤ k
          omega
      · rw [if_neg hbs]
        exact hmain best hdiag hdom (Or.inr (by omega))
    · -- j > i : dominated by the diagonal chain at (i, i), no update
      have hnotin : i ∉ j :: rem := by
        intro hmem
        rcases List.mem_cons.mp hmem with h | h
        · omega
        · exact Nat.lt_irrefl i (Nat.lt_trans hji (hsort2.1 i h))
      have hchain : chainD xs i i ≤ best.2.2 := by
        rcases hin with h | h
        · exact absurd h hnotin
        · exact h
      have hle : k ≤ best.2.2 := by
        rw [hk]
        calc chainD xs i j ≤ chainD xs i i := (chainD_le_diag xs i j).2
          _ ≤ best.2.2 := hchain
      rw [if_neg (by omega)]
      exact hmain best hdiag hdom (Or.inr hchain)

theorem jsAt_pairwise (xs : List String) (i : Nat) :
    ((b2j xs (xs.getD i "")).filter
      (fun j => decide (0 ≤ j) && decide (j < xs.length))).Pairwise (· < ·) := by
  apply List.Pairwise.filter
  unfold b2j
  split
  · exact List.Pairwise.nil
  · exact List.Pairwise.filter _ (List.pairwise_lt_range xs.length)

/-- The whole sweep on `(xs, xs)` returns a best match on the
diagonal. -/
theorem flmRows_self (xs : List String) :
    ∀ (cnt i : Nat), i + cnt = xs.length →
    ∀ (m : Nat → Nat) (best : Nat × Nat × Nat),
      (∀ j, m j = prevMap xs i j) →
      best.1 = best.2.1 →
      (∀ i' < i, chainD xs i' i' ≤ best.2.2) →
      (flmRows xs xs 0 xs.length (List.range' i cnt) m best).1 =
        (flmRows xs xs 0 xs.length (List.range' i cnt) m best).2.1 := by
  intro cnt
  induction cnt with
  | zero =>
    intro i h m best hm hdiag hdom
    rw [List.range'_zero, flmRows]
    exact hdiag
  | succ cnt ih =>
    intro i h m best hm hdiag hdom
    rw [List.range'_succ, flmRows]
    have hi : i < xs.length := by omega
    have hsub : ∀ j ∈ (b2j xs (xs.getD i "")).filter
        (fun j => decide (0 ≤ j) && decide (j < xs.length)), diagCond xs i j :=
      fun j hj => (mem_jsAt xs i hi j).mp hj
    have hin : i ∈ (b2j xs (xs.getD i "")).filter
        (fun j => decide (0 ≤ j) && decide (j < xs.length)) ∨
        chainD xs i i ≤ best.2.2 := by
      by_cases hd : diagCond xs i i
      · exact Or.inl ((mem_jsAt xs i hi i).mpr hd)
      · right
        rw [chainD_zero xs i i hd]
        exact Nat.zero_le _
    obtain ⟨c1, c2, c3, c4⟩ := flmInner_self xs i m hm _ (fun _ => 0) best hsub
      (jsAt_pairwise xs i) hdiag hdom hin
    have hstep : i + 1 + cnt = xs.length := by omega
    refine ih (i + 1) hstep _ _ ?_ c2 ?_
    · intro j
      have hpm : prevMap xs (i + 1) j = chainD xs i j := by
        show (if i + 1 = 0 then 0 else chainD xs (i + 1 - 1) j) = chainD xs i j
        rw [if_neg (Nat.succ_ne_zero i)]
        rfl
      rw [c1 j, hpm]
      split
      · rfl
      · rename_i hj
        exact (chainD_zero xs i j (fun hd => hj ((mem_jsAt xs i hi j).mpr hd))).symm
    · intro i' hi'
      rcases Nat.lt_or_ge i' i with h2 | h2
      · exact c3 i' h2
      · have he : i' = i := by omega
        subst he
        exact c4

/-- The backward extension loop on `(xs, xs)` carries a diagonal match
all the way back to the start. -/
theorem extendBack_self (xs : List String) :
    ∀ (fuel d s : Nat), d ≤ fuel →
      extendBack xs xs 0 0 fuel (d, d, s) = (0, 0, s + d) := by
  intro fuel
  induction fuel with
  | zero =>
    intro d s hd
    have : d = 0 := Nat.le_zero.mp hd
    subst this
    rfl
  | succ fuel ih =>
    intro d s hd
    cases d with
    | zero =>
      rw [extendBack]
      simp
    | succ d =>
      rw [extendBack]
      rw [if_pos]
      · have hred1 : d + 1 - 1 = d := rfl
        rw [hred1, ih d (s + 1) (by omega)]
        have : s + 1 + d = s + (d + 1) := by omega
        rw [this]
      · simp

/-- The forward extension loop on `(xs, xs)` carries a diagonal match at
the origin all the way to the full length. -/
theorem extendFwd_self (xs : List String) (n : Nat) :
    ∀ (fuel s : Nat), s ≤ n → n - s ≤ fuel →
      extendFwd xs xs n n fuel (0, 0, s) = (0, 0, n) := by
  intro fuel
  induction fuel with
  | zero =>
    intro s h1 h2
    have : s = n := by omega
    subst this
    rfl
  | succ fuel ih =>
    intro s h1 h2
    by_cases hs : s < n
    · rw [extendFwd]
      rw [if_pos]
      · exact ih (s + 1) (by omega) (by omega)
      · simp [hs]
    · have : s = n := by omega
      subst this
      rw [extendFwd]
      rw [if_neg]
      simp

/-- On equal inputs the top-level `find_longest_match` returns the
full-range match `(0, 0, n)`. -/
theorem findLongestMatch_self (xs : List String) :
    findLongestMatch xs xs 0 xs.length 0 xs.length = (0, 0, xs.length) := by
  unfold findLongestMatch
  have hm0 : ∀ j, (fun _ => (0 : Nat)) j = prevMap xs 0 j := by
    intro j
    unfold prevMap
    rw [if_pos rfl]
  have hdiag := flmRows_self xs (xs.length - 0) 0 (by omega) (fun _ => 0) (0, 0, 0)
    hm0 rfl (by omega)
  have hok : BestOK 0 xs.length 0 xs.length
      (flmRows xs xs 0 xs.length (List.range' 0 (xs.length - 0)) (fun _ => 0) (0, 0, 0)) := by
    refine flmRows_ok xs xs 0 xs.length 0 xs.length (xs.length - 0) 0 le_rfl (by omega)
      (fun _ => 0) (0, 0, 0) ?_ ⟨le_rfl, le_rfl, by simp, by simp⟩
    intro j hj
    simp at hj
  rcases hbest : flmRows xs xs 0 xs.length (List.range' 0 (xs.length - 0))
      (fun _ => 0) (0, 0, 0) with ⟨bi, bj, bs⟩
  rw [hbest] at hdiag hok
  obtain ⟨o1, o2, o3, o4⟩ := hok
  simp only [] at hdiag o3
  subst hdiag
  show extendFwd xs xs xs.length xs.length xs.length
      (extendBack xs xs 0 0 bi (bi, bi, bs)) = (0, 0, xs.length)
  rw [extendBack_self xs bi bi bs le_rfl]
  exact extendFwd_self xs xs.length xs.length (bs + bi) (by omega) (by omega)

/-- `find_longest_match` on an empty rectangle returns the empty match
at the lower corner. -/
theorem findLongestMatch_empty (a b : List String) (alo blo : Nat) :
    findLongestMatch a b alo alo blo blo = (alo, blo, 0) := by
  unfold findLongestMatch
  rw [Nat.sub_self, List.range'_zero]
  have hback : extendBack a b alo blo alo (alo, blo, 0) = (alo, blo, 0) := by
    cases alo with
    | zero => rfl
    | succ n =>
      rw [extendBack, if_neg]
      simp
  show extendFwd a b alo blo alo (extendBack a b alo blo alo (alo, blo, 0)) = (alo, blo, 0)
  rw [hback]
  cases alo with
  | zero => rfl
  | succ n =>
    rw [extendFwd, if_neg]
    simp

theorem matchingBlocksGo_empty (a b : List String) (fuel alo blo : Nat) :
    matchingBlocksGo a b fuel alo alo blo blo = [] := by
  cases fuel with
  | zero => rfl
  | succ fuel =>
    rw [matchingBlocksGo, findLongestMatch_empty]
    rw [if_pos rfl]

/-- On equal inputs the matching blocks are the full-range block and the
sentinel. -/
theorem getMatchingBlocks_self (xs : List String) (hn : 1 ≤ xs.length) :
    getMatchingBlocks xs xs = [(0, 0, xs.length), (xs.length, xs.length, 0)] := by
  unfold getMatchingBlocks
  rw [matchingBlocksGo, findLongestMatch_self xs]
  have h1 : ((0, 0, xs.length) : Nat × Nat × Nat).1 = 0 := rfl
  have h21 : ((0, 0, xs.length) : Nat × Nat × Nat).2.1 = 0 := rfl
  have h22 : ((0, 0, xs.length) : Nat × Nat × Nat).2.2 = xs.length := rfl
  simp only [h1, h21, h22]
  rw [if_neg (by omega)]
  rw [Nat.zero_add, matchingBlocksGo_empty, matchingBlocksGo_empty]
  rw [List.nil_append, List.singleton_append]
  rw [coalesce, if_pos ⟨rfl, rfl⟩, coalesce, if_pos (by omega)]
  rw [Nat.zero_add]
  rfl

/-- On equal inputs `get_opcodes` is the single full-range `equal`
opcode. -/
theorem getOpcodes_self (xs : List String) (hn : 1 ≤ xs.length) :
    getOpcodes xs xs = [⟨Tag.equal, 0, xs.length, 0, xs.length⟩] := by
  unfold getOpcodes
  rw [getMatchingBlocks_self xs hn]
  rw [opcodesGo, if_neg (by omega), if_neg (by omega), if_neg (by omega),
    if_pos (by omega)]
  rw [opcodesGo, if_neg (by omega), if_neg (by omega), if_neg (by omega),
    if_neg (by omega)]
  rw [opcodesGo]
  simp

/-- C1: for every string `a`, `diff_strings(a, a)` — with the default
arguments, indeed with any color and symbol arguments — returns a string
identical to `a`: the matcher yields a single full-range `equal` opcode
(every opcode is `equal`), every line is emitted unstyled with no ANSI
escapes added, and rejoining the lines with newlines reconstructs `a`
exactly. -/
theorem diff_strings_self (a : String) (fg : ColorVal) (bg : ColorVal × ColorVal)
    (sym : Bool) :
    diff_strings a a fg bg sym = a ∧
    diff_strings a a = a ∧
    getOpcodes (splitLines a) (splitLines a) =
      [⟨Tag.equal, 0, (splitLines a).length, 0, (splitLines a).length⟩] ∧
    (∀ op ∈ getOpcodes (splitLines a) (splitLines a), op.tag = Tag.equal) := by
  have hn : 1 ≤ (splitLines a).length := by
    unfold splitLines
    rw [List.length_map]
    cases h : splitNl a.data with
    | nil => exact absurd h (splitNl_nonempty a.data)
    | cons l ls => simp
  have hops := getOpcodes_self (splitLines a) hn
  have hmain : ∀ (fg1 : ColorVal) (bg1 : ColorVal × ColorVal) (sym1 : Bool),
      diff_strings a a fg1 bg1 sym1 = a := by
    intro fg1 bg1 sym1
    show joinNl (((getOpcodes (splitLines a) (splitLines a)).map
      (renderOpcode (splitLines a) (splitLines a) fg1 bg1.1 bg1.2 sym1)).flatten) = a
    rw [hops, List.map_cons, List.map_nil]
    have hrender : renderOpcode (splitLines a) (splitLines a) fg1 bg1.1 bg1.2 sym1
        ⟨Tag.equal, 0, (splitLines a).length, 0, (splitLines a).length⟩ =
        splitLines a := by
      unfold renderOpcode
      rw [if_pos rfl, if_neg (by simp), if_neg (by simp)]
      unfold sliceList
      rw [List.drop_zero, Nat.sub_zero, List.take_length]
      simp
    rw [hrender]
    rw [List.flatten_cons, List.flatten_nil, List.append_nil]
    exact joinNl_splitLines a
  refine ⟨hmain fg bg sym, hmain _ _ _, hops, ?_⟩
  intro op hop
  rw [hops] at hop
  simp only [List.mem_singleton] at hop
  subst hop
  rfl

end Wasabi
